import Mathlib

/-!
Verification of the natural-language specification of Netflix/go-expect
against a shallow embedding of its Go source.

Bytes are modelled as `Nat` (values < 256), runes (Go `rune`) as `Nat`
code points, byte streams as lists of chunks (`List (List Nat)`): one
chunk is what a single `Read` call on the underlying reader delivers.

The embedding covers:
* `unicode/utf8`: `DecodeRune`, `EncodeRune`, `FullRune` (used through
  `bufio.Reader.ReadRune` / `bufio.Writer.WriteRune` in `Console.Expect`);
* the `Console.Expect` loop of expect.go (buffered rune reader of size
  `utf8.UTFMax` — which `bufio.NewReaderSize` raises to its minimum
  buffer size of 16 — multi-writer tee into the sinks and the match
  buffer, flush after every rune, substring test after every rune);
* `readerWithDeadline` / `WithTimeout` option handling of expect.go;
* `ReaderMux.Mux` and `chanReader.Read`;
* `StripTrailingEmptyLines` of test_log.go;
* `PassthroughPipe` (modelled from the spec; its implementation is not
  among the provided sources, only its tests are).
-/

namespace GoExpect

/-- Go `strings.Contains (hay, needle)` on byte lists: `needle` occurs as a
contiguous substring of `hay`.  Implemented, as in Go, by checking a prefix
at every position. -/
def startsWith : List Nat → List Nat → Bool
  | [], _ => true
  | _ :: _, [] => false
  | a :: as, b :: bs => a == b && startsWith as bs

/-- `containsSub hay needle` is Go `strings.Contains(hay, needle)`. -/
def containsSub : List Nat → List Nat → Bool
  | hay, needle =>
    startsWith needle hay ||
      match hay with
      | [] => false
      | _ :: t => containsSub t needle

/-- `startsWith needle hay` holds iff `hay = needle ++ rest`. -/
theorem startsWith_iff (needle hay : List Nat) :
    startsWith needle hay = true ↔ ∃ rest, hay = needle ++ rest := by
  induction needle generalizing hay with
  | nil => simp [startsWith]
  | cons a as ih =>
    cases hay with
    | nil => simp [startsWith]
    | cons b bs =>
      simp only [startsWith, Bool.and_eq_true, beq_iff_eq, ih, List.cons_append,
        List.cons.injEq]
      constructor
      · rintro ⟨h1, rest, h2⟩
        exact ⟨rest, h1.symm, h2⟩
      · rintro ⟨rest, h1, h2⟩
        exact ⟨h1.symm, rest, h2⟩

/-- `containsSub` really is the substring relation. -/
theorem containsSub_iff (hay needle : List Nat) :
    containsSub hay needle = true ↔ ∃ pre post, hay = pre ++ needle ++ post := by
  induction hay with
  | nil =>
    simp only [containsSub, Bool.or_eq_true, startsWith_iff]
    constructor
    · rintro (⟨rest, h⟩ | h)
      · exact ⟨[], rest, by simpa using h⟩
      · cases h
    · rintro ⟨pre, post, h⟩
      exact Or.inl ⟨post, by
        have hpre : pre = [] := by
          cases pre with
          | nil => rfl
          | cons x xs => simp at h
        have hne : needle = [] := by
          subst hpre
          cases needle with
          | nil => rfl
          | cons x xs => simp at h
        subst hpre hne
        simpa using h⟩
  | cons a t ih =>
    simp only [containsSub, Bool.or_eq_true, startsWith_iff, ih]
    constructor
    · rintro (⟨rest, h⟩ | ⟨pre, post, h⟩)
      · exact ⟨[], rest, by simpa using h⟩
      · exact ⟨a :: pre, post, by simp [h]⟩
    · rintro ⟨pre, post, h⟩
      cases pre with
      | nil => exact Or.inl ⟨post, by simpa using h⟩
      | cons x xs =>
        right
        refine ⟨xs, post, ?_⟩
        simp only [List.cons_append, List.cons.injEq] at h
        exact h.2

/-! ### unicode/utf8 -/

/-- Expected length of a UTF-8 encoding given its first byte (the `first`
table of Go's `unicode/utf8`; an invalid first byte has length 1 since it
decodes as a width-1 replacement rune). -/
def runeLen (b0 : Nat) : Nat :=
  if b0 < 0x80 then 1
  else if b0 < 0xC2 then 1
  else if b0 < 0xE0 then 2
  else if b0 < 0xF0 then 3
  else if b0 ≤ 0xF4 then 4
  else 1

/-- Lower bound of the accepted range for the second byte (Go's
`acceptRanges`). -/
def accLo (b0 : Nat) : Nat :=
  if b0 == 0xE0 then 0xA0 else if b0 == 0xF0 then 0x90 else 0x80

/-- Upper bound of the accepted range for the second byte (Go's
`acceptRanges`). -/
def accHi (b0 : Nat) : Nat :=
  if b0 == 0xED then 0x9F else if b0 == 0xF4 then 0x8F else 0xBF

/-- Third-byte test of `utf8.FullRune` (continuation byte out of range makes
the truncated sequence already invalid, hence a full width-1 error rune). -/
def fullRuneAtThird : List Nat → Bool
  | [] => false
  | b2 :: _ => b2 < 0x80 || 0xBF < b2

/-- Second-byte test of `utf8.FullRune`. -/
def fullRuneAtSecond (b0 : Nat) : List Nat → Bool
  | [] => false
  | b1 :: rest2 =>
    if b1 < accLo b0 || accHi b0 < b1 then true else fullRuneAtThird rest2

/-- Go `utf8.FullRune`: the byte list begins with a full UTF-8 encoding of a
rune; an invalid encoding counts as a full rune since it decodes as a
width-1 replacement rune. -/
def fullRune : List Nat → Bool
  | [] => false
  | b0 :: rest =>
    if rest.length + 1 ≥ runeLen b0 then true else fullRuneAtSecond b0 rest

/-- The replacement rune U+FFFD (`utf8.RuneError`). -/
def runeError : Nat := 0xFFFD

/-- Two-byte branch of `utf8.DecodeRune` (first byte in `[0xC2, 0xDF]`). -/
def decodeSize2 (b0 : Nat) : List Nat → Nat × Nat
  | b1 :: _ =>
    if 0x80 ≤ b1 ∧ b1 ≤ 0xBF then ((b0 - 0xC0) * 64 + (b1 - 0x80), 2)
    else (runeError, 1)
  | [] => (runeError, 1)

/-- Three-byte branch of `utf8.DecodeRune` (first byte in `[0xE0, 0xEF]`). -/
def decodeSize3 (b0 : Nat) : List Nat → Nat × Nat
  | b1 :: b2 :: _ =>
    if (accLo b0 ≤ b1 ∧ b1 ≤ accHi b0) ∧ (0x80 ≤ b2 ∧ b2 ≤ 0xBF) then
      ((b0 - 0xE0) * 4096 + (b1 - 0x80) * 64 + (b2 - 0x80), 3)
    else (runeError, 1)
  | _ => (runeError, 1)

/-- Four-byte branch of `utf8.DecodeRune` (first byte in `[0xF0, 0xF4]`). -/
def decodeSize4 (b0 : Nat) : List Nat → Nat × Nat
  | b1 :: b2 :: b3 :: _ =>
    if (accLo b0 ≤ b1 ∧ b1 ≤ accHi b0) ∧ (0x80 ≤ b2 ∧ b2 ≤ 0xBF) ∧
        (0x80 ≤ b3 ∧ b3 ≤ 0xBF) then
      ((b0 - 0xF0) * 262144 + (b1 - 0x80) * 4096 + (b2 - 0x80) * 64 + (b3 - 0x80), 4)
    else (runeError, 1)
  | _ => (runeError, 1)

/-- Go `utf8.DecodeRune`: decode the first rune of a byte list, returning
the rune and the number of bytes it occupies.  Any invalid or truncated
encoding yields `(runeError, 1)`; the empty list yields `(runeError, 0)`. -/
def decodeRune : List Nat → Nat × Nat
  | [] => (runeError, 0)
  | b0 :: rest =>
    if b0 < 0x80 then (b0, 1)
    else if b0 < 0xC2 then (runeError, 1)
    else if b0 < 0xE0 then decodeSize2 b0 rest
    else if b0 < 0xF0 then decodeSize3 b0 rest
    else if b0 ≤ 0xF4 then decodeSize4 b0 rest
    else (runeError, 1)

/-- Go `utf8.EncodeRune` as performed by `bufio.Writer.WriteRune`: a
surrogate or out-of-range code point is encoded as the replacement rune. -/
def encodeRune (r : Nat) : List Nat :=
  if r < 0x80 then [r]
  else if r < 0x800 then [0xC0 + r / 64, 0x80 + r % 64]
  else if (0xD800 ≤ r ∧ r < 0xE000) ∨ 0x10FFFF < r then [0xEF, 0xBF, 0xBD]
  else if r < 0x10000 then [0xE0 + r / 4096, 0x80 + (r / 64) % 64, 0x80 + r % 64]
  else [0xF0 + r / 262144, 0x80 + (r / 4096) % 64, 0x80 + (r / 64) % 64, 0x80 + r % 64]

/-- A Unicode scalar value: encodable in UTF-8 and decoded back to itself. -/
def validScalar (r : Nat) : Prop :=
  r < 0xD800 ∨ (0xE000 ≤ r ∧ r < 0x110000)

instance (r : Nat) : Decidable (validScalar r) := by
  unfold validScalar; infer_instance

/-- UTF-8 encoding of a rune sequence. -/
def encodeAll (rs : List Nat) : List Nat :=
  (rs.map encodeRune).flatten

theorem encodeAll_nil : encodeAll [] = [] := rfl

theorem encodeAll_cons (r : Nat) (rs : List Nat) :
    encodeAll (r :: rs) = encodeRune r ++ encodeAll rs := rfl

theorem encodeAll_append (xs ys : List Nat) :
    encodeAll (xs ++ ys) = encodeAll xs ++ encodeAll ys := by
  induction xs with
  | nil => simp [encodeAll]
  | cons x xs ih => simp [encodeAll_cons, ih, encodeAll, List.append_assoc]

/-! ### Shape of the encoding in each size class -/

theorem encodeRune_size1 {r : Nat} (h : r < 0x80) : encodeRune r = [r] := by
  unfold encodeRune; rw [if_pos h]

theorem encodeRune_size2 {r : Nat} (h1 : 0x80 ≤ r) (h2 : r < 0x800) :
    encodeRune r = [0xC0 + r / 64, 0x80 + r % 64] := by
  unfold encodeRune; rw [if_neg (by omega), if_pos h2]

theorem encodeRune_size3 {r : Nat} (h1 : 0x800 ≤ r) (h2 : r < 0x10000)
    (h3 : validScalar r) :
    encodeRune r = [0xE0 + r / 4096, 0x80 + (r / 64) % 64, 0x80 + r % 64] := by
  unfold validScalar at h3
  unfold encodeRune
  rw [if_neg (by omega), if_neg (by omega), if_neg (by omega), if_pos h2]

theorem encodeRune_size4 {r : Nat} (h1 : 0x10000 ≤ r) (h2 : r ≤ 0x10FFFF) :
    encodeRune r =
      [0xF0 + r / 262144, 0x80 + (r / 4096) % 64, 0x80 + (r / 64) % 64, 0x80 + r % 64] := by
  unfold encodeRune
  rw [if_neg (by omega), if_neg (by omega), if_neg (by omega), if_neg (by omega)]

theorem encodeRune_ne_nil (r : Nat) : encodeRune r ≠ [] := by
  unfold encodeRune
  split <;> try simp
  split <;> try simp
  split <;> try simp
  split <;> simp

/-! ### Evaluating `runeLen` and the accept ranges in each size class -/

theorem runeLen_eq_one {b : Nat} (h : b < 0x80) : runeLen b = 1 := by
  unfold runeLen; rw [if_pos h]

theorem runeLen_eq_two {b : Nat} (h1 : 0xC2 ≤ b) (h2 : b < 0xE0) : runeLen b = 2 := by
  unfold runeLen; rw [if_neg (by omega), if_neg (by omega), if_pos h2]

theorem runeLen_eq_three {b : Nat} (h1 : 0xE0 ≤ b) (h2 : b < 0xF0) : runeLen b = 3 := by
  unfold runeLen; rw [if_neg (by omega), if_neg (by omega), if_neg (by omega), if_pos h2]

theorem runeLen_eq_four {b : Nat} (h1 : 0xF0 ≤ b) (h2 : b ≤ 0xF4) : runeLen b = 4 := by
  unfold runeLen
  rw [if_neg (by omega), if_neg (by omega), if_neg (by omega), if_neg (by omega), if_pos h2]

theorem accOk_size3 {r : Nat} (h2 : 0x800 ≤ r) (h3 : r < 0x10000) (hv : validScalar r) :
    accLo (0xE0 + r / 4096) ≤ 0x80 + (r / 64) % 64 ∧
      0x80 + (r / 64) % 64 ≤ accHi (0xE0 + r / 4096) := by
  unfold validScalar at hv
  unfold accLo accHi
  constructor
  · split
    · next he =>
      simp only [beq_iff_eq] at he
      have : r / 4096 = 0 := by omega
      omega
    · split
      · next he =>
        simp only [beq_iff_eq] at he
        omega
      · omega
  · split
    · next he =>
      simp only [beq_iff_eq] at he
      have : r / 4096 = 13 := by omega
      omega
    · split
      · next he =>
        simp only [beq_iff_eq] at he
        omega
      · omega

theorem accOk_size4 {r : Nat} (h3 : 0x10000 ≤ r) (h4 : r ≤ 0x10FFFF) :
    accLo (0xF0 + r / 262144) ≤ 0x80 + (r / 4096) % 64 ∧
      0x80 + (r / 4096) % 64 ≤ accHi (0xF0 + r / 262144) := by
  unfold accLo accHi
  constructor
  · split
    · next he =>
      simp only [beq_iff_eq] at he
      omega
    · split
      · next he =>
        simp only [beq_iff_eq] at he
        have : r / 262144 = 0 := by omega
        omega
      · omega
  · split
    · next he =>
      simp only [beq_iff_eq] at he
      omega
    · split
      · next he =>
        simp only [beq_iff_eq] at he
        have : r / 262144 = 4 := by omega
        omega
      · omega

/-! ### `FullRune` on the partial and complete encodings of a valid scalar -/

theorem fullRune_nil : fullRune [] = false := rfl

theorem fullRune_encode {r : Nat} (hv : validScalar r) :
    fullRune (encodeRune r) = true := by
  have hv2 := hv
  unfold validScalar at hv2
  rcases Nat.lt_or_ge r 0x80 with h1 | h1
  · rw [encodeRune_size1 h1]
    simp only [fullRune, List.length_nil]
    rw [runeLen_eq_one h1, if_pos (by omega)]
  · rcases Nat.lt_or_ge r 0x800 with h2 | h2
    · rw [encodeRune_size2 h1 h2]
      simp only [fullRune, List.length_cons, List.length_nil]
      rw [runeLen_eq_two (by omega) (by omega), if_pos (by omega)]
    · rcases Nat.lt_or_ge r 0x10000 with h3 | h3
      · rw [encodeRune_size3 h2 h3 hv]
        simp only [fullRune, List.length_cons, List.length_nil]
        rw [runeLen_eq_three (by omega) (by omega), if_pos (by omega)]
      · have h4 : r ≤ 0x10FFFF := by omega
        rw [encodeRune_size4 h3 h4]
        simp only [fullRune, List.length_cons, List.length_nil]
        rw [runeLen_eq_four (by omega) (by omega), if_pos (by omega)]

theorem fullRune_take_encode {r : Nat} (hv : validScalar r) {k : Nat}
    (hk : k < (encodeRune r).length) :
    fullRune ((encodeRune r).take k) = false := by
  have hv2 := hv
  unfold validScalar at hv2
  rcases Nat.lt_or_ge r 0x80 with h1 | h1
  · rw [encodeRune_size1 h1] at hk ⊢
    simp only [List.length_cons, List.length_nil] at hk
    have : k = 0 := by omega
    subst this
    rfl
  · rcases Nat.lt_or_ge r 0x800 with h2 | h2
    · rw [encodeRune_size2 h1 h2] at hk ⊢
      simp only [List.length_cons, List.length_nil] at hk
      have hk1 : k = 0 ∨ k = 1 := by omega
      rcases hk1 with hk1 | hk1 <;> subst hk1
      · rfl
      · show fullRune [0xC0 + r / 64] = false
        simp only [fullRune, List.length_nil]
        rw [runeLen_eq_two (by omega) (by omega), if_neg (by omega)]
        rfl
    · rcases Nat.lt_or_ge r 0x10000 with h3 | h3
      · have hacc := accOk_size3 h2 h3 hv
        rw [encodeRune_size3 h2 h3 hv] at hk ⊢
        simp only [List.length_cons, List.length_nil] at hk
        have hk1 : k = 0 ∨ k = 1 ∨ k = 2 := by omega
        rcases hk1 with hk1 | hk1 | hk1 <;> subst hk1
        · rfl
        · show fullRune [0xE0 + r / 4096] = false
          simp only [fullRune, List.length_nil]
          rw [runeLen_eq_three (by omega) (by omega), if_neg (by omega)]
          rfl
        · show fullRune [0xE0 + r / 4096, 0x80 + (r / 64) % 64] = false
          simp only [fullRune, List.length_cons, List.length_nil]
          rw [runeLen_eq_three (by omega) (by omega), if_neg (by omega)]
          simp only [fullRuneAtSecond]
          rw [if_neg (by
            simp only [Bool.or_eq_true, decide_eq_true_eq, not_or, not_lt]
            exact ⟨hacc.1, hacc.2⟩)]
          rfl
      · have h4 : r ≤ 0x10FFFF := by omega
        have hacc := accOk_size4 h3 h4
        rw [encodeRune_size4 h3 h4] at hk ⊢
        simp only [List.length_cons, List.length_nil] at hk
        have hk1 : k = 0 ∨ k = 1 ∨ k = 2 ∨ k = 3 := by omega
        rcases hk1 with hk1 | hk1 | hk1 | hk1 <;> subst hk1
        · rfl
        · show fullRune [0xF0 + r / 262144] = false
          simp only [fullRune, List.length_nil]
          rw [runeLen_eq_four (by omega) (by omega), if_neg (by omega)]
          rfl
        · show fullRune [0xF0 + r / 262144, 0x80 + (r / 4096) % 64] = false
          simp only [fullRune, List.length_cons, List.length_nil]
          rw [runeLen_eq_four (by omega) (by omega), if_neg (by omega)]
          simp only [fullRuneAtSecond]
          rw [if_neg (by
            simp only [Bool.or_eq_true, decide_eq_true_eq, not_or, not_lt]
            exact ⟨hacc.1, hacc.2⟩)]
          rfl
        · show fullRune
              [0xF0 + r / 262144, 0x80 + (r / 4096) % 64, 0x80 + (r / 64) % 64] = false
          simp only [fullRune, List.length_cons, List.length_nil]
          rw [runeLen_eq_four (by omega) (by omega), if_neg (by omega)]
          simp only [fullRuneAtSecond]
          rw [if_neg (by
            simp only [Bool.or_eq_true, decide_eq_true_eq, not_or, not_lt]
            exact ⟨hacc.1, hacc.2⟩)]
          simp only [fullRuneAtThird, Bool.or_eq_false_iff, decide_eq_false_iff_not, not_lt]
          omega

/-! ### Decoding the encoding of a valid scalar -/

theorem decodeRune_encode {r : Nat} (hv : validScalar r) :
    decodeRune (encodeRune r) = (r, (encodeRune r).length) := by
  have hv2 := hv
  unfold validScalar at hv2
  rcases Nat.lt_or_ge r 0x80 with h1 | h1
  · rw [encodeRune_size1 h1]
    simp only [decodeRune]
    rw [if_pos h1]
    rfl
  · rcases Nat.lt_or_ge r 0x800 with h2 | h2
    · rw [encodeRune_size2 h1 h2]
      simp only [decodeRune]
      rw [if_neg (by omega), if_neg (by omega), if_pos (by omega)]
      simp only [decodeSize2]
      rw [if_pos (by omega)]
      simp only [List.length_cons, List.length_nil, Prod.mk.injEq, and_true]
      omega
    · rcases Nat.lt_or_ge r 0x10000 with h3 | h3
      · have hacc := accOk_size3 h2 h3 hv
        rw [encodeRune_size3 h2 h3 hv]
        simp only [decodeRune]
        rw [if_neg (by omega), if_neg (by omega), if_neg (by omega), if_pos (by omega)]
        simp only [decodeSize3]
        rw [if_pos ⟨⟨hacc.1, hacc.2⟩, by omega, by omega⟩]
        simp only [List.length_cons, List.length_nil, Prod.mk.injEq, and_true]
        omega
      · have h4 : r ≤ 0x10FFFF := by omega
        have hacc := accOk_size4 h3 h4
        rw [encodeRune_size4 h3 h4]
        simp only [decodeRune]
        rw [if_neg (by omega), if_neg (by omega), if_neg (by omega), if_neg (by omega),
          if_pos (by omega)]
        simp only [decodeSize4]
        rw [if_pos ⟨⟨hacc.1, hacc.2⟩, ⟨by omega, by omega⟩, by omega, by omega⟩]
        simp only [List.length_cons, List.length_nil, Prod.mk.injEq, and_true]
        omega

/-! ### The `Console.Expect` loop of expect.go

`Expect` builds a `bufio.Reader` of size `utf8.UTFMax` over the stream
(`bufio.NewReaderSize` raises any size below 16 to 16), a
`io.MultiWriter(stdouts..., buf)` wrapped in a `bufio.Writer` of size
`utf8.UTFMax`, and loops: `content = buf.String()`; `ReadRune`;
`WriteRune`; `Flush`; `content = buf.String()`; stop when
`strings.Contains(content, s)`.

The stream is a list of chunks: one chunk is the byte group a single
`Read` call on the underlying reader returns (a pty read returns whatever
is currently available, up to the length of the destination slice).
`terminal` is the error the reader reports once the chunks are exhausted.
All configured stdout sinks receive identical writes, so they are
represented by one `sunk` list; a sink of limited capacity (`sinkCap`)
models a sink whose `Write` fails, which makes `Flush` fail.  Since the
match buffer `buf` is the last target of the `io.MultiWriter`, a failing
sink write prevents the buffer update of that rune. -/

/-- A trace event: one `Read` on the underlying stream delivering a chunk,
or one flushed block written to every sink. -/
inductive Event where
  | rd : List Nat → Event
  | wr : List Nat → Event
deriving DecidableEq, Repr

/-- The error the reader yields when the stream is exhausted. -/
inductive Terminal where
  | eof : Terminal
  | timeout : Terminal
deriving DecidableEq, Repr

/-- State of one `Expect` call. -/
structure State where
  /-- Bytes sitting in the `bufio.Reader`'s internal buffer. -/
  buffered : List Nat
  /-- Chunks the underlying reader has not yet delivered. -/
  chunks : List (List Nat)
  /-- Error reported by the reader once `chunks` is exhausted. -/
  terminal : Terminal
  /-- Bytes consumed from the underlying stream so far. -/
  consumed : List Nat
  /-- Byte capacity of the stdout sink; `none` = sink never fails. -/
  sinkCap : Option Nat
  /-- Bytes accepted by the stdout sink so far. -/
  sunk : List Nat
  /-- Content of the match buffer `buf` (a `bytes.Buffer`). -/
  buf : List Nat
  /-- Value of the local variable `content`. -/
  contentV : List Nat
  /-- Trace of reads and flushed writes. -/
  trace : List Event
deriving DecidableEq, Repr

/-- Kind of error an `Expect` call reports. -/
inductive ErrKind where
  | terminal : Terminal → ErrKind
  | flush : ErrKind
  | fuel : ErrKind
deriving DecidableEq, Repr

/-- Outcome of an `Expect` call: the returned `content` string and the
final state (`.fail` also carries the returned `content`). -/
inductive Result where
  | ok : List Nat → State → Result
  | fail : ErrKind → List Nat → State → Result
deriving DecidableEq, Repr

/-- A stream delivered one byte per `Read` call. -/
def byteChunks (bs : List Nat) : List (List Nat) :=
  bs.map (fun b => [b])

/-- One `fill` of the `bufio.Reader`: a single `Read` into the free part of
its 16-byte buffer; `none` when the read reports the terminal error. -/
def fillOnce (st : State) : Option State :=
  match st.chunks with
  | [] => none
  | c :: rest =>
    let k := min (16 - st.buffered.length) c.length
    let taken := c.take k
    some { st with
           buffered := st.buffered ++ taken,
           chunks := if k < c.length then c.drop k :: rest else rest,
           consumed := st.consumed ++ taken,
           trace := st.trace ++ [Event.rd taken] }

/-- The fill loop of `bufio.Reader.ReadRune`: fill while fewer than
`utf8.UTFMax` bytes are buffered, they do not form a full rune, and no read
error occurred.  Four fills always suffice, matching the loop bound. -/
def fillLoop : Nat → State → State
  | 0, st => st
  | fuel + 1, st =>
    if 4 ≤ st.buffered.length ∨ fullRune st.buffered = true then st
    else
      match fillOnce st with
      | none => st
      | some st2 => fillLoop fuel st2

/-- Write a flushed block through `io.MultiWriter(stdouts..., buf)`: the
stdout sink first (its failure aborts the multi-write before `buf`), then
the match buffer. -/
def flushBlock (st : State) (block : List Nat) : Option State :=
  let ok : State :=
    { st with
      sunk := st.sunk ++ block,
      buf := st.buf ++ block,
      trace := st.trace ++ [Event.wr block] }
  match st.sinkCap with
  | some cap => if st.sunk.length + block.length ≤ cap then some ok else none
  | none => some ok

/-- The `Expect` loop.  Each iteration: save `content = buf.String()`,
`ReadRune` (fill loop, then decode from the buffer; an empty buffer after
a read error returns that error), `WriteRune` + `Flush` (re-encode the rune
and write it through the multi-writer; a failed flush returns the saved
`content`), save `content` again and stop if it contains the needle. -/
def expectGo (needle : List Nat) : Nat → State → Result
  | 0, st => .fail .fuel st.contentV st
  | fuel + 1, st =>
    let st1 : State := { st with contentV := st.buf }
    let st2 := fillLoop 4 st1
    if st2.buffered.isEmpty then .fail (.terminal st2.terminal) st2.contentV st2
    else
      let d := decodeRune st2.buffered
      let st3 : State := { st2 with buffered := st2.buffered.drop d.2 }
      match flushBlock st3 (encodeRune d.1) with
      | none => .fail .flush st3.contentV st3
      | some st4 =>
        let st5 : State := { st4 with contentV := st4.buf }
        if containsSub st5.buf needle then .ok st5.contentV st5
        else expectGo needle fuel st5

/-- Initial state of an `Expect` call: fresh `bufio.Reader`, fresh match
buffer, nothing consumed, nothing written. -/
def cleanState (chunks : List (List Nat)) (cap : Option Nat) (term : Terminal) : State :=
  { buffered := [], chunks := chunks, terminal := term, consumed := [],
    sinkCap := cap, sunk := [], buf := [], contentV := [], trace := [] }

/-- Total number of bytes the stream still holds (buffered plus
undelivered). -/
def totalLen (st : State) : Nat :=
  st.buffered.length + (st.chunks.map List.length).sum

theorem fillOnce_chunk (st : State) (c : List Nat) (cs : List (List Nat))
    (hc : st.chunks = c :: cs) (hlen : c.length ≤ 16 - st.buffered.length) :
    fillOnce st = some
      { st with
        buffered := st.buffered ++ c,
        chunks := cs,
        consumed := st.consumed ++ c,
        trace := st.trace ++ [Event.rd c] } := by
  have hk : min (16 - st.buffered.length) c.length = c.length := by omega
  simp only [fillOnce]
  rw [hc]
  simp only [hk, List.take_length, Option.some.injEq]
  rw [if_neg (by omega)]

theorem fillLoop_stop (fuel : Nat) (st : State)
    (h : 4 ≤ st.buffered.length ∨ fullRune st.buffered = true) :
    fillLoop (fuel + 1) st = st := by
  simp only [fillLoop]
  rw [if_pos h]

theorem fillLoop_step (fuel : Nat) (st st2 : State)
    (hg : ¬ (4 ≤ st.buffered.length ∨ fullRune st.buffered = true))
    (hf : fillOnce st = some st2) :
    fillLoop (fuel + 1) st = fillLoop fuel st2 := by
  simp only [fillLoop]
  rw [if_neg hg, hf]

theorem byteChunks_nil : byteChunks [] = [] := rfl

theorem byteChunks_cons (b : Nat) (bs : List Nat) :
    byteChunks (b :: bs) = [b] :: byteChunks bs := rfl

theorem byteChunks_append (xs ys : List Nat) :
    byteChunks (xs ++ ys) = byteChunks xs ++ byteChunks ys := by
  simp [byteChunks]

theorem fillLoop_bytes1 (b0 : Nat) (bs : List Nat) (st : State)
    (hb : st.buffered = []) (hc : st.chunks = [b0] :: byteChunks bs)
    (hf1 : fullRune [b0] = true) :
    fillLoop 4 st =
      { st with
        buffered := [b0],
        chunks := byteChunks bs,
        consumed := st.consumed ++ [b0],
        trace := st.trace ++ [Event.rd [b0]] } := by
  obtain ⟨bu, ch, te, co, cap, su, bf, cv, tr⟩ := st
  simp only at hb hc
  subst hb hc
  rw [fillLoop_step 3 _ _ (by simp [fullRune_nil]) (fillOnce_chunk _ [b0] _ rfl (by simp))]
  rw [fillLoop_stop 2 _ (by simp [hf1])]
  simp

theorem fillLoop_bytes2 (b0 b1 : Nat) (bs : List Nat) (st : State)
    (hb : st.buffered = []) (hc : st.chunks = [b0] :: [b1] :: byteChunks bs)
    (hf0 : fullRune [b0] = false)
    (hf1 : fullRune [b0, b1] = true) :
    fillLoop 4 st =
      { st with
        buffered := [b0, b1],
        chunks := byteChunks bs,
        consumed := st.consumed ++ [b0, b1],
        trace := st.trace ++ [Event.rd [b0], Event.rd [b1]] } := by
  obtain ⟨bu, ch, te, co, cap, su, bf, cv, tr⟩ := st
  simp only at hb hc
  subst hb hc
  rw [fillLoop_step 3 _ _ (by simp [fullRune_nil]) (fillOnce_chunk _ [b0] _ rfl (by simp))]
  rw [fillLoop_step 2 _ _ (by simp [hf0]) (fillOnce_chunk _ [b1] _ rfl (by simp))]
  rw [fillLoop_stop 1 _ (by simp [hf1])]
  simp

theorem fillLoop_bytes3 (b0 b1 b2 : Nat) (bs : List Nat) (st : State)
    (hb : st.buffered = []) (hc : st.chunks = [b0] :: [b1] :: [b2] :: byteChunks bs)
    (hf0 : fullRune [b0] = false)
    (hf1 : fullRune [b0, b1] = false)
    (hf2 : fullRune [b0, b1, b2] = true) :
    fillLoop 4 st =
      { st with
        buffered := [b0, b1, b2],
        chunks := byteChunks bs,
        consumed := st.consumed ++ [b0, b1, b2],
        trace := st.trace ++ [Event.rd [b0], Event.rd [b1], Event.rd [b2]] } := by
  obtain ⟨bu, ch, te, co, cap, su, bf, cv, tr⟩ := st
  simp only at hb hc
  subst hb hc
  rw [fillLoop_step 3 _ _ (by simp [fullRune_nil]) (fillOnce_chunk _ [b0] _ rfl (by simp))]
  rw [fillLoop_step 2 _ _ (by simp [hf0]) (fillOnce_chunk _ [b1] _ rfl (by simp))]
  rw [fillLoop_step 1 _ _ (by simp [hf1]) (fillOnce_chunk _ [b2] _ rfl (by simp))]
  rw [fillLoop_stop 0 _ (by simp [hf2])]
  simp

theorem fillLoop_bytes4 (b0 b1 b2 b3 : Nat) (bs : List Nat) (st : State)
    (hb : st.buffered = [])
    (hc : st.chunks = [b0] :: [b1] :: [b2] :: [b3] :: byteChunks bs)
    (hf0 : fullRune [b0] = false)
    (hf1 : fullRune [b0, b1] = false)
    (hf2 : fullRune [b0, b1, b2] = false) :
    fillLoop 4 st =
      { st with
        buffered := [b0, b1, b2, b3],
        chunks := byteChunks bs,
        consumed := st.consumed ++ [b0, b1, b2, b3],
        trace := st.trace ++ [Event.rd [b0], Event.rd [b1], Event.rd [b2], Event.rd [b3]] } := by
  obtain ⟨bu, ch, te, co, cap, su, bf, cv, tr⟩ := st
  simp only at hb hc
  subst hb hc
  rw [fillLoop_step 3 _ _ (by simp [fullRune_nil]) (fillOnce_chunk _ [b0] _ rfl (by simp))]
  rw [fillLoop_step 2 _ _ (by simp [hf0]) (fillOnce_chunk _ [b1] _ rfl (by simp))]
  rw [fillLoop_step 1 _ _ (by simp [hf1]) (fillOnce_chunk _ [b2] _ rfl (by simp))]
  rw [fillLoop_step 0 _ _ (by simp [hf2]) (fillOnce_chunk _ [b3] _ rfl (by simp))]
  simp [fillLoop]

theorem fillLoop_encode (r : Nat) (hv : validScalar r) (bs : List Nat) (st : State)
    (hb : st.buffered = []) (hc : st.chunks = byteChunks (encodeRune r ++ bs)) :
    fillLoop 4 st =
      { st with
        buffered := encodeRune r,
        chunks := byteChunks bs,
        consumed := st.consumed ++ encodeRune r,
        trace := st.trace ++ (encodeRune r).map (fun b => Event.rd [b]) } := by
  have hv2 := hv
  unfold validScalar at hv2
  have hfull : fullRune (encodeRune r) = true := fullRune_encode hv
  rcases Nat.lt_or_ge r 0x80 with h1 | h1
  · rw [encodeRune_size1 h1] at hc hfull ⊢
    exact fillLoop_bytes1 _ bs st hb (by rw [hc]; simp [byteChunks]) hfull
  · rcases Nat.lt_or_ge r 0x800 with h2 | h2
    · have hp1 : fullRune ((encodeRune r).take 1) = false :=
        fullRune_take_encode hv (by rw [encodeRune_size2 h1 h2]; simp)
      rw [encodeRune_size2 h1 h2] at hc hfull hp1 ⊢
      simp only [List.take] at hp1
      exact fillLoop_bytes2 _ _ bs st hb (by rw [hc]; simp [byteChunks]) hp1 hfull
    · rcases Nat.lt_or_ge r 0x10000 with h3 | h3
      · have hp1 : fullRune ((encodeRune r).take 1) = false :=
          fullRune_take_encode hv (by rw [encodeRune_size3 h2 h3 hv]; simp)
        have hp2 : fullRune ((encodeRune r).take 2) = false :=
          fullRune_take_encode hv (by rw [encodeRune_size3 h2 h3 hv]; simp)
        rw [encodeRune_size3 h2 h3 hv] at hc hfull hp1 hp2 ⊢
        simp only [List.take] at hp1 hp2
        exact fillLoop_bytes3 _ _ _ bs st hb (by rw [hc]; simp [byteChunks]) hp1 hp2 hfull
      · have h4 : r ≤ 0x10FFFF := by omega
        have hp1 : fullRune ((encodeRune r).take 1) = false :=
          fullRune_take_encode hv (by rw [encodeRune_size4 h3 h4]; simp)
        have hp2 : fullRune ((encodeRune r).take 2) = false :=
          fullRune_take_encode hv (by rw [encodeRune_size4 h3 h4]; simp)
        have hp3 : fullRune ((encodeRune r).take 3) = false :=
          fullRune_take_encode hv (by rw [encodeRune_size4 h3 h4]; simp)
        rw [encodeRune_size4 h3 h4] at hc hfull hp1 hp2 hp3 ⊢
        simp only [List.take] at hp1 hp2 hp3
        exact fillLoop_bytes4 _ _ _ _ bs st hb (by rw [hc]; simp [byteChunks]) hp1 hp2 hp3

/-- Trace contribution of processing one rune delivered byte-wise: one read
per byte of its encoding, then one flushed write of the whole encoding. -/
def runeTrace (r : Nat) : List Event :=
  (encodeRune r).map (fun b => Event.rd [b]) ++ [Event.wr (encodeRune r)]

/-- Effect of one loop iteration on the state, for a byte-wise stream of
well-formed UTF-8: the rune `r` is consumed, re-encoded, teed to the sink
and the match buffer, and the `content` variable updated. -/
def advanceRune (st : State) (r : Nat) (bs : List Nat) : State :=
  { buffered := [],
    chunks := byteChunks bs,
    terminal := st.terminal,
    consumed := st.consumed ++ encodeRune r,
    sinkCap := st.sinkCap,
    sunk := st.sunk ++ encodeRune r,
    buf := st.buf ++ encodeRune r,
    contentV := st.buf ++ encodeRune r,
    trace := st.trace ++ runeTrace r }

theorem isEmpty_encode (r : Nat) : (encodeRune r).isEmpty = false := by
  cases henc : encodeRune r with
  | nil => exact absurd henc (encodeRune_ne_nil r)
  | cons a l => rfl

theorem expectGo_iter (needle : List Nat) (fuel : Nat) (r : Nat) (hv : validScalar r)
    (bs : List Nat) (st : State) (hb : st.buffered = [])
    (hc : st.chunks = byteChunks (encodeRune r ++ bs)) (hcap : st.sinkCap = none) :
    expectGo needle (fuel + 1) st =
      if containsSub (st.buf ++ encodeRune r) needle = true then
        Result.ok (st.buf ++ encodeRune r) (advanceRune st r bs)
      else expectGo needle fuel (advanceRune st r bs) := by
  obtain ⟨bu, ch, te, co, cap, su, bf, cv, tr⟩ := st
  simp only at hb hc hcap
  subst hb hc hcap
  simp only [expectGo]
  rw [fillLoop_encode r hv bs _ rfl rfl]
  simp only [isEmpty_encode r, Bool.false_eq_true, if_false, decodeRune_encode hv,
    List.drop_length, flushBlock, advanceRune, runeTrace]
  simp [List.append_assoc]

theorem fillLoop_empty (fuel : Nat) (st : State) (hb : st.buffered = [])
    (hc : st.chunks = []) :
    fillLoop fuel st = st := by
  cases fuel with
  | zero => rfl
  | succ f =>
    simp only [fillLoop]
    rw [if_neg (by simp [hb, fullRune_nil])]
    have hfo : fillOnce st = none := by
      simp only [fillOnce]
      rw [hc]
    rw [hfo]

/-- Reference scanner: walk the rune sequence, growing the accumulated
buffer by one re-encoded rune at a time; report the first accumulated
buffer that contains the needle, together with the unread rune tail. -/
def scanSplit (needle : List Nat) : List Nat → List Nat → Option (List Nat × List Nat)
  | _, [] => none
  | acc, r :: rest =>
    if containsSub (acc ++ encodeRune r) needle = true then some ([r], rest)
    else
      match scanSplit needle (acc ++ encodeRune r) rest with
      | some (ps, rest2) => some (r :: ps, rest2)
      | none => none

/-- Master characterization of the `Expect` loop on a byte-wise delivered,
well-formed UTF-8 stream: the loop behaves exactly like the reference
scanner, and every component of the final state is determined by the
processed rune prefix. -/
theorem expectGo_master (needle : List Nat) (rs : List Nat)
    (hv : ∀ r ∈ rs, validScalar r) (st : State) (hb : st.buffered = [])
    (hc : st.chunks = byteChunks (encodeAll rs)) (hcap : st.sinkCap = none)
    (fuel : Nat) (hf : rs.length < fuel) :
    expectGo needle fuel st =
      match scanSplit needle st.buf rs with
      | some (ps, rest) =>
          Result.ok (st.buf ++ encodeAll ps)
            { buffered := [], chunks := byteChunks (encodeAll rest),
              terminal := st.terminal,
              consumed := st.consumed ++ encodeAll ps, sinkCap := none,
              sunk := st.sunk ++ encodeAll ps, buf := st.buf ++ encodeAll ps,
              contentV := st.buf ++ encodeAll ps,
              trace := st.trace ++ (ps.map runeTrace).flatten }
      | none =>
          Result.fail (.terminal st.terminal) (st.buf ++ encodeAll rs)
            { buffered := [], chunks := [], terminal := st.terminal,
              consumed := st.consumed ++ encodeAll rs, sinkCap := none,
              sunk := st.sunk ++ encodeAll rs, buf := st.buf ++ encodeAll rs,
              contentV := st.buf ++ encodeAll rs,
              trace := st.trace ++ (rs.map runeTrace).flatten } := by
  induction rs generalizing st fuel with
  | nil =>
    cases fuel with
    | zero => omega
    | succ f =>
      simp only [expectGo]
      rw [fillLoop_empty 4 _ (by simp [hb]) (by simp [hc, encodeAll_nil, byteChunks_nil])]
      simp only [scanSplit]
      obtain ⟨bu, ch, te, co, cap, su, bf, cv, tr⟩ := st
      simp only at hb hc hcap
      subst hb hc hcap
      simp [encodeAll_nil, byteChunks_nil]
  | cons r rest ih =>
    cases fuel with
    | zero => omega
    | succ f =>
      rw [expectGo_iter needle f r (hv r (by simp)) (encodeAll rest) st hb
        (by rw [hc, encodeAll_cons]) hcap]
      simp only [scanSplit]
      by_cases hcon : containsSub (st.buf ++ encodeRune r) needle = true
      · rw [if_pos hcon, if_pos hcon]
        obtain ⟨bu, ch, te, co, cap, su, bf, cv, tr⟩ := st
        simp only at hb hcap ⊢
        subst hb hcap
        simp [advanceRune, encodeAll_cons, encodeAll_nil, runeTrace]
      · rw [if_neg hcon, if_neg hcon]
        rw [ih (fun x hx => hv x (by simp [hx])) (advanceRune st r (encodeAll rest))
          rfl rfl (by simp [advanceRune, hcap]) f (by simpa using Nat.lt_of_succ_lt_succ hf)]
        have hbuf : (advanceRune st r (encodeAll rest)).buf = st.buf ++ encodeRune r := rfl
        rw [hbuf]
        cases hscan : scanSplit needle (st.buf ++ encodeRune r) rest with
        | none =>
          simp [advanceRune, encodeAll_cons, List.append_assoc, runeTrace]
        | some pr =>
          obtain ⟨ps, rest2⟩ := pr
          simp [advanceRune, encodeAll_cons, List.append_assoc, runeTrace]

/-! ### Result projections and scanner properties -/

/-- The `content` string an `Expect` call returns (on success or failure). -/
def resultContent : Result → List Nat
  | .ok c _ => c
  | .fail _ c _ => c

/-- Did the `Expect` call return without error? -/
def resultOk : Result → Bool
  | .ok _ _ => true
  | .fail _ _ _ => false

/-- The state at the moment the `Expect` call returns. -/
def finalState : Result → State
  | .ok _ st => st
  | .fail _ _ st => st

theorem scanSplit_some (needle acc rs ps rest : List Nat)
    (h : scanSplit needle acc rs = some (ps, rest)) :
    ∃ k, 1 ≤ k ∧ k ≤ rs.length ∧ ps = rs.take k ∧ rest = rs.drop k ∧
      containsSub (acc ++ encodeAll (rs.take k)) needle = true ∧
      ∀ j, 1 ≤ j → j < k → containsSub (acc ++ encodeAll (rs.take j)) needle = false := by
  induction rs generalizing acc ps rest with
  | nil => simp [scanSplit] at h
  | cons r rest2 ih =>
    simp only [scanSplit] at h
    by_cases hcon : containsSub (acc ++ encodeRune r) needle = true
    · rw [if_pos hcon] at h
      simp only [Option.some.injEq, Prod.mk.injEq] at h
      obtain ⟨hps, hrest⟩ := h
      refine ⟨1, by omega, by simp, by simp [← hps], by simp [← hrest], ?_, ?_⟩
      · simpa [encodeAll_cons, encodeAll_nil] using hcon
      · intro j hj1 hj2
        omega
    · rw [if_neg hcon] at h
      cases hscan : scanSplit needle (acc ++ encodeRune r) rest2 with
      | none => rw [hscan] at h; simp at h
      | some pr =>
        obtain ⟨ps2, rest3⟩ := pr
        rw [hscan] at h
        simp only [Option.some.injEq, Prod.mk.injEq] at h
        obtain ⟨hps, hrest⟩ := h
        obtain ⟨k, hk1, hklen, hkps, hkrest, hkcon, hkmin⟩ := ih (acc ++ encodeRune r) ps2 rest3 hscan
        simp only [Bool.not_eq_true] at hcon
        refine ⟨k + 1, by omega, by simp [hklen], ?_, ?_, ?_, ?_⟩
        · simp [← hps, hkps]
        · simp [← hrest, hkrest]
        · simpa [encodeAll_cons, List.append_assoc] using hkcon
        · intro j hj1 hj2
          cases j with
          | zero => omega
          | succ j2 =>
            cases j2 with
            | zero => simpa [encodeAll_cons, encodeAll_nil] using hcon
            | succ j3 =>
              have := hkmin (j3 + 1) (by omega) (by omega)
              simpa [encodeAll_cons, List.append_assoc] using this

theorem scanSplit_none (needle acc rs : List Nat)
    (h : scanSplit needle acc rs = none) :
    ∀ k, 1 ≤ k → k ≤ rs.length → containsSub (acc ++ encodeAll (rs.take k)) needle = false := by
  induction rs generalizing acc with
  | nil =>
    intro k h1 h2
    simp at h2
    omega
  | cons r rest ih =>
    simp only [scanSplit] at h
    by_cases hcon : containsSub (acc ++ encodeRune r) needle = true
    · rw [if_pos hcon] at h
      simp at h
    · rw [if_neg hcon] at h
      cases hscan : scanSplit needle (acc ++ encodeRune r) rest with
      | some pr =>
        obtain ⟨ps, r2⟩ := pr
        rw [hscan] at h
        simp at h
      | none =>
        intro k h1 h2
        simp only [Bool.not_eq_true] at hcon
        cases k with
        | zero => omega
        | succ k2 =>
          cases k2 with
          | zero => simpa [encodeAll_cons, encodeAll_nil] using hcon
          | succ k3 =>
            have := ih (acc ++ encodeRune r) hscan (k3 + 1) (by omega) (by simpa using h2)
            simpa [encodeAll_cons, List.append_assoc] using this

/-! ### Trace bookkeeping -/

/-- Concatenation of all bytes delivered by reads in a trace. -/
def rdConcat : List Event → List Nat
  | [] => []
  | .rd bs :: tr => bs ++ rdConcat tr
  | .wr _ :: tr => rdConcat tr

/-- Concatenation of all bytes flushed to the sinks in a trace. -/
def wrConcat : List Event → List Nat
  | [] => []
  | .rd _ :: tr => wrConcat tr
  | .wr bs :: tr => bs ++ wrConcat tr

/-- Byte-level interleaving as the claim states it: at every read event all
previously read bytes have already been written to every sink (`pending`
holds the bytes read but not yet covered by writes). -/
def noReadWhilePending : List Event → List Nat → Bool
  | [], _ => true
  | .rd bs :: tr, pending => decide (pending = []) && noReadWhilePending tr bs
  | .wr bs :: tr, pending => noReadWhilePending tr (pending.drop bs.length)

/-- Rune-level tee fidelity: every flushed block is exactly the bytes read
since the previous flush, so each rune is written to every sink before the
next rune is read. -/
def teeFaithful : List Event → List Nat → Bool
  | [], _ => true
  | .rd bs :: tr, pending => teeFaithful tr (pending ++ bs)
  | .wr bs :: tr, pending => decide (bs = pending) && teeFaithful tr []

theorem rdConcat_append (t1 t2 : List Event) :
    rdConcat (t1 ++ t2) = rdConcat t1 ++ rdConcat t2 := by
  induction t1 with
  | nil => rfl
  | cons e tr ih => cases e <;> simp [rdConcat, ih]

theorem wrConcat_append (t1 t2 : List Event) :
    wrConcat (t1 ++ t2) = wrConcat t1 ++ wrConcat t2 := by
  induction t1 with
  | nil => rfl
  | cons e tr ih => cases e <;> simp [wrConcat, ih]

theorem wrConcat_rd_map (bs : List Nat) (t : List Event) :
    wrConcat (bs.map (fun b => Event.rd [b]) ++ t) = wrConcat t := by
  induction bs with
  | nil => rfl
  | cons b bs ih => simpa [wrConcat] using ih

theorem rdConcat_rd_map (bs : List Nat) (t : List Event) :
    rdConcat (bs.map (fun b => Event.rd [b]) ++ t) = bs ++ rdConcat t := by
  induction bs with
  | nil => rfl
  | cons b bs ih => simp [rdConcat, ih]

theorem wrConcat_runesTrace (ps : List Nat) :
    wrConcat ((ps.map runeTrace).flatten) = encodeAll ps := by
  induction ps with
  | nil => rfl
  | cons r ps ih =>
    simp only [List.map_cons, List.flatten_cons, runeTrace]
    rw [List.append_assoc, wrConcat_rd_map]
    simpa [wrConcat, encodeAll_cons] using congrArg (encodeRune r ++ ·) ih

theorem rdConcat_runesTrace (ps : List Nat) :
    rdConcat ((ps.map runeTrace).flatten) = encodeAll ps := by
  induction ps with
  | nil => rfl
  | cons r ps ih =>
    simp only [List.map_cons, List.flatten_cons, runeTrace]
    rw [List.append_assoc, rdConcat_rd_map]
    simpa [rdConcat, encodeAll_cons, List.append_assoc] using congrArg (encodeRune r ++ ·) ih

theorem teeFaithful_rd_map (bs : List Nat) (t : List Event) (pending : List Nat) :
    teeFaithful (bs.map (fun b => Event.rd [b]) ++ t) pending =
      teeFaithful t (pending ++ bs) := by
  induction bs generalizing pending with
  | nil => simp
  | cons b bs ih => simp [teeFaithful, ih]

theorem teeFaithful_runesTrace (ps : List Nat) :
    teeFaithful ((ps.map runeTrace).flatten) [] = true := by
  induction ps with
  | nil => rfl
  | cons r ps ih =>
    simp only [List.map_cons, List.flatten_cons, runeTrace]
    rw [List.append_assoc, teeFaithful_rd_map]
    simpa [teeFaithful] using ih

/-! ### Field preservation through fills and flushes -/

theorem fillOnce_fields (s s2 : State) (h : fillOnce s = some s2) :
    s2.buf = s.buf ∧ s2.contentV = s.contentV ∧ s2.terminal = s.terminal ∧
      s2.sinkCap = s.sinkCap ∧ s2.sunk = s.sunk := by
  simp only [fillOnce] at h
  cases hch : s.chunks with
  | nil => rw [hch] at h; simp at h
  | cons c cs =>
    rw [hch] at h
    simp only [Option.some.injEq] at h
    subst h
    exact ⟨rfl, rfl, rfl, rfl, rfl⟩

theorem fillLoop_fields (f : Nat) (s : State) :
    (fillLoop f s).buf = s.buf ∧ (fillLoop f s).contentV = s.contentV ∧
      (fillLoop f s).terminal = s.terminal ∧ (fillLoop f s).sinkCap = s.sinkCap ∧
      (fillLoop f s).sunk = s.sunk := by
  induction f generalizing s with
  | zero => exact ⟨rfl, rfl, rfl, rfl, rfl⟩
  | succ f ih =>
    simp only [fillLoop]
    split
    · exact ⟨rfl, rfl, rfl, rfl, rfl⟩
    · cases hfo : fillOnce s with
      | none => exact ⟨rfl, rfl, rfl, rfl, rfl⟩
      | some s2 =>
        obtain ⟨h1, h2, h3, h4, h5⟩ := fillOnce_fields s s2 hfo
        obtain ⟨g1, g2, g3, g4, g5⟩ := ih s2
        exact ⟨g1.trans h1, g2.trans h2, g3.trans h3, g4.trans h4, g5.trans h5⟩

theorem flushBlock_fields (s : State) (block : List Nat) (s2 : State)
    (h : flushBlock s block = some s2) :
    s2.buf = s.buf ++ block ∧ s2.contentV = s.contentV ∧ s2.terminal = s.terminal ∧
      s2.sinkCap = s.sinkCap := by
  simp only [flushBlock] at h
  cases hcap : s.sinkCap with
  | none =>
    rw [hcap] at h
    simp only [Option.some.injEq] at h
    subst h
    exact ⟨rfl, rfl, rfl, rfl⟩
  | some cap =>
    rw [hcap] at h
    simp only at h
    by_cases hle : s.sunk.length + block.length ≤ cap
    · rw [if_pos hle] at h
      simp only [Option.some.injEq] at h
      subst h
      exact ⟨rfl, rfl, rfl, rfl⟩
    · rw [if_neg hle] at h
      simp at h

/-- Claim C10 engine: whatever state an `Expect` call starts from, every
error return (other than fuel exhaustion, which the Go loop does not have)
hands back exactly the match buffer content at the moment of failure. -/
theorem expectGo_fail_content (fuel : Nat) (needle : List Nat) (st : State)
    (ek : ErrKind) (c : List Nat) (stF : State)
    (h : expectGo needle fuel st = .fail ek c stF) (hek : ek ≠ .fuel) :
    c = stF.buf := by
  induction fuel generalizing st with
  | zero =>
    simp only [expectGo, Result.fail.injEq] at h
    exact absurd h.1.symm hek
  | succ f ih =>
    simp only [expectGo] at h
    set st2 := fillLoop 4 { st with contentV := st.buf } with hst2
    by_cases hemp : st2.buffered.isEmpty
    · rw [if_pos hemp] at h
      simp only [Result.fail.injEq] at h
      obtain ⟨-, hc, hstF⟩ := h
      obtain ⟨hbuf, hcv, -, -, -⟩ := fillLoop_fields 4 { st with contentV := st.buf }
      rw [← hst2] at hbuf hcv
      rw [← hc, ← hstF, hbuf, hcv]
    · rw [if_neg hemp] at h
      cases hflush : flushBlock { st2 with buffered := st2.buffered.drop (decodeRune st2.buffered).2 }
          (encodeRune (decodeRune st2.buffered).1) with
      | none =>
        rw [hflush] at h
        simp only [Result.fail.injEq] at h
        obtain ⟨-, hc, hstF⟩ := h
        obtain ⟨hbuf, hcv, -, -, -⟩ := fillLoop_fields 4 { st with contentV := st.buf }
        rw [← hst2] at hbuf hcv
        rw [← hc, ← hstF]
        simp only
        rw [hbuf, hcv]
      | some st4 =>
        rw [hflush] at h
        simp only at h
        by_cases hcon : containsSub st4.buf needle = true
        · rw [if_pos hcon] at h
          simp at h
        · rw [if_neg hcon] at h
          exact ih { st4 with contentV := st4.buf } h

/-- The terminal error an `Expect` call reports is the one its reader was
created with (a timeout can only be reported by a deadline reader). -/
theorem expectGo_fail_terminal (fuel : Nat) (needle : List Nat) (st : State)
    (t : Terminal) (c : List Nat) (stF : State)
    (h : expectGo needle fuel st = .fail (.terminal t) c stF) :
    t = st.terminal := by
  induction fuel generalizing st with
  | zero =>
    simp only [expectGo, Result.fail.injEq] at h
    exact absurd h.1 (by simp)
  | succ f ih =>
    simp only [expectGo] at h
    set st2 := fillLoop 4 { st with contentV := st.buf } with hst2
    by_cases hemp : st2.buffered.isEmpty
    · rw [if_pos hemp] at h
      simp only [Result.fail.injEq, ErrKind.terminal.injEq] at h
      obtain ⟨ht, -, -⟩ := h
      obtain ⟨-, -, hterm, -, -⟩ := fillLoop_fields 4 { st with contentV := st.buf }
      rw [← hst2] at hterm
      rw [← ht, hterm]
    · rw [if_neg hemp] at h
      cases hflush : flushBlock { st2 with buffered := st2.buffered.drop (decodeRune st2.buffered).2 }
          (encodeRune (decodeRune st2.buffered).1) with
      | none =>
        rw [hflush] at h
        simp at h
      | some st4 =>
        rw [hflush] at h
        simp only at h
        by_cases hcon : containsSub st4.buf needle = true
        · rw [if_pos hcon] at h
          simp at h
        · rw [if_neg hcon] at h
          have ht := ih { st4 with contentV := st4.buf } h
          obtain ⟨-, -, hterm4, -⟩ := flushBlock_fields _ _ _ hflush
          obtain ⟨-, -, hterm2, -, -⟩ := fillLoop_fields 4 { st with contentV := st.buf }
          rw [← hst2] at hterm2
          rw [ht]
          simp only
          rw [hterm4]
          simp only
          rw [hterm2]

/-! ### `WithTimeout` and `readerWithDeadline` (expect.go)

`Expect` resolves its options and picks the reader: with `Timeout == 0`
the reader is the pty master itself (`WithTimeout` doc: "A zero value for
timeout means Read will not time out"); otherwise the pty is wrapped by
`readerWithDeadline`: an `os.Pipe` whose read end gets the absolute
deadline now+timeout, fed by a background `io.Copy` from the pty.  Chunks
that become available only after the deadline are never seen by the call,
and because the copier never closes the write end of the pipe, a read past
the deadline reports a timeout error (never EOF). -/

/-- A chunk that becomes available `arrival` time units after the expect
call starts. -/
structure TimedChunk where
  arrival : Nat
  data : List Nat
deriving DecidableEq, Repr

/-- `Console.Expect` including the option handling of expect.go. -/
def consoleExpect (timeout : Nat) (stream : List TimedChunk) (needle : List Nat)
    (fuel : Nat) : Result :=
  if timeout = 0 then
    expectGo needle fuel (cleanState (stream.map (fun c => c.data)) none .eof)
  else
    expectGo needle fuel
      (cleanState ((stream.filter (fun c => c.arrival ≤ timeout)).map (fun c => c.data))
        none .timeout)

/-- Go `os.IsTimeout` applied to the error an expect call returned. -/
def isTimeoutErr : Result → Bool
  | .fail (.terminal .timeout) _ _ => true
  | _ => false

/-! ### PassthroughPipe

Modelled from the spec: the `PassthroughPipe` implementation is not among
the provided sources (only its tests are).  Spec §4.1: a background task
copies the upstream into an internal deadline-capable pipe; when the
upstream copy finishes with error `E`, `E` is stored and the internal pipe
closed; the handle's reads drain any remaining piped bytes first and then
surface `E` rather than a generic EOF; with no data and no stored error a
read blocks (until data arrives or the read deadline expires). -/

/-- State of a `PassthroughPipe`: bytes still in the internal pipe and the
stored terminal upstream error. -/
structure PassthroughPipe where
  buffered : List Nat
  storedErr : Option String
deriving DecidableEq, Repr

/-- Outcome of one `read` on a `PassthroughPipe`. -/
inductive PPReadResult where
  | bytes : List Nat → PPReadResult
  | errE : String → PPReadResult
  | wouldBlock : PPReadResult
deriving DecidableEq, Repr

/-- Modelled from the spec: one `read(buf)` with `buf` of length `n ≥ 1`:
deliver up to `n` buffered bytes; once drained, surface the stored error
`E` itself; block when neither is available. -/
def PassthroughPipe.read (pp : PassthroughPipe) (n : Nat) :
    PPReadResult × PassthroughPipe :=
  match pp.buffered with
  | [] =>
    match pp.storedErr with
    | some e => (.errE e, pp)
    | none => (.wouldBlock, pp)
  | b :: rest => (.bytes ((b :: rest).take n), { pp with buffered := (b :: rest).drop n })

/-- The pipe state after `k` single-byte reads. -/
def PassthroughPipe.readIter (pp : PassthroughPipe) : Nat → PassthroughPipe
  | 0 => pp
  | k + 1 => ((pp.read 1).2).readIter k

theorem readIter_state (pp : PassthroughPipe) (k : Nat) :
    pp.readIter k = { buffered := pp.buffered.drop k, storedErr := pp.storedErr } := by
  induction k generalizing pp with
  | zero => simp [PassthroughPipe.readIter]
  | succ k ih =>
    simp only [PassthroughPipe.readIter]
    cases hb : pp.buffered with
    | nil =>
      cases he : pp.storedErr with
      | some e =>
        rw [show (pp.read 1).2 = pp by simp only [PassthroughPipe.read, hb, he]]
        rw [ih pp, hb]
        simp [hb, he]
      | none =>
        rw [show (pp.read 1).2 = pp by simp only [PassthroughPipe.read, hb, he]]
        rw [ih pp, hb]
        simp [hb, he]
    | cons b rest =>
      rw [show (pp.read 1).2 = { pp with buffered := (b :: rest).drop 1 } by
        simp [PassthroughPipe.read, hb]]
      rw [ih]
      simp [hb]

/-! ### ReaderMux (`Mux` and `chanReader.Read`) -/

/-- Outcome of a single 1-byte `Read` on the upstream of a `ReaderMux`. -/
inductive ReadOutcome where
  | byte : Nat → ReadOutcome
  | zero : ReadOutcome
  | errR : String → ReadOutcome
deriving DecidableEq, Repr

/-- How a `Mux()` loop ended. -/
inductive MuxExit where
  | retErr : String → MuxExit
  | panicked : MuxExit
deriving DecidableEq, Repr

/-- `ReaderMux.Mux`: loop reading one byte at a time (`p := make([]byte, 1)`)
from the upstream; on a read error return it; on a 0-byte read with nil
error `panic("non eof read 0 bytes")`; otherwise publish `p[0]` on the
single shared channel.  `upstream` is the sequence of outcomes of the
successive 1-byte reads; the result is the published bytes in order and how
the loop exited (`none` = the listed reads are over and the loop is still
running, blocked in the next read). -/
def Mux : List ReadOutcome → List Nat × Option MuxExit
  | [] => ([], none)
  | .byte b :: rest =>
    let p := Mux rest
    (b :: p.1, p.2)
  | .errR e :: _ => ([], some (.retErr e))
  | .zero :: _ => ([], some .panicked)

/-- Outcome of `chanReader.Read`. -/
inductive CRResult where
  | eof : CRResult
  | one : Nat → CRResult
  | errZeroLen : CRResult
  | blocked : CRResult
deriving DecidableEq, Repr

/-- `chanReader.Read`: a `select` over scope cancellation (`ctx.Done()`)
and the shared byte channel.  `done` is whether the scope is cancelled,
`queue` the bytes available on the channel, `bufLen` the length of `p`,
and `pickDone` resolves the race when both select branches are ready (the
Go runtime picks one pseudorandomly).  The zero-length check happens only
after the channel receive, inside that branch.  Returns the outcome and the
remaining channel content. -/
def chanReaderRead (done : Bool) (queue : List Nat) (bufLen : Nat)
    (pickDone : Bool) : CRResult × List Nat :=
  if done && (queue.isEmpty || pickDone) then (.eof, queue)
  else
    match queue with
    | b :: rest => if bufLen < 1 then (.errZeroLen, rest) else (.one b, rest)
    | [] => if done then (.eof, queue) else (.blocked, queue)

/-! ### StripTrailingEmptyLines (test_log.go)

Strings are modelled as `List Char`. -/

/-- Go `strings.Split(out, "\n")`. -/
def splitLines : List Char → List (List Char)
  | [] => [[]]
  | c :: rest =>
    match splitLines rest with
    | [] => [[]]
    | l :: ls => if c = '\n' then [] :: l :: ls else (c :: l) :: ls

/-- Go `strings.Join(lines, "\n")`. -/
def joinLines : List (List Char) → List Char
  | [] => []
  | [l] => l
  | l :: ls => l ++ '\n' :: joinLines ls

/-- Go `strings.Replace(l, " ", "", -1)`: remove every space character. -/
def removeSpaces (l : List Char) : List Char :=
  l.filter (fun c => !(c == ' '))

/-- Drop leading entries of a line list while `p` holds; stop at the first
entry where it fails. -/
def dropLeadingIf (p : List Char → Bool) : List (List Char) → List (List Char)
  | [] => []
  | l :: rest => if p l then dropLeadingIf p rest else l :: rest

/-- The backwards loop of `StripTrailingEmptyLines`: pop the last line while
replacing its spaces by nothing leaves the empty string; stop at the first
line that keeps a character.  (The source iterates `i` from the end and
re-slices `lines`; both shrink by one per iteration, which is dropping from
the end while space-only.) -/
def trimTrailingSpaceLines (ls : List (List Char)) : List (List Char) :=
  (dropLeadingIf (fun l => (removeSpaces l).length == 0) ls.reverse).reverse

/-- `StripTrailingEmptyLines` of test_log.go. -/
def StripTrailingEmptyLines (out : List Char) : List Char :=
  let lines := splitLines out
  if lines.length < 2 then out
  else joinLines (trimTrailingSpaceLines lines)

/-- The claim's notion: a line consisting only of whitespace. -/
def whitespaceOnlyLine (l : List Char) : Bool :=
  l.all (fun c => c.isWhitespace)

/-- The claim, as worded: strip every trailing line that consists only of
whitespace. -/
def stripTrailingWhitespaceLines (out : List Char) : List Char :=
  let lines := splitLines out
  if lines.length < 2 then out
  else joinLines ((dropLeadingIf whitespaceOnlyLine lines.reverse).reverse)

theorem dropLeadingIf_spec (p : List Char → Bool) (ls : List (List Char)) :
    ∃ d k, ls = d ++ k ∧ (∀ l ∈ d, p l = true) ∧
      (k = [] ∨ ∃ h2 t2, k = h2 :: t2 ∧ p h2 = false) ∧
      dropLeadingIf p ls = k := by
  induction ls with
  | nil => exact ⟨[], [], by simp, by simp, Or.inl rfl, rfl⟩
  | cons l rest ih =>
    by_cases hp : p l = true
    · obtain ⟨d, k, hdk, hd, hk, hres⟩ := ih
      exact ⟨l :: d, k, by simp [hdk], by simpa [hp] using hd,
        hk, by simpa [dropLeadingIf, hp] using hres⟩
    · refine ⟨[], l :: rest, by simp, by simp, Or.inr ⟨l, rest, rfl, by simpa using hp⟩, ?_⟩
      simp [dropLeadingIf, hp]

/-! ### Small helper facts for the claim theorems -/

@[simp] theorem cleanState_buffered (c : List (List Nat)) (p : Option Nat) (t : Terminal) :
    (cleanState c p t).buffered = [] := rfl

@[simp] theorem cleanState_chunks (c : List (List Nat)) (p : Option Nat) (t : Terminal) :
    (cleanState c p t).chunks = c := rfl

@[simp] theorem cleanState_terminal (c : List (List Nat)) (p : Option Nat) (t : Terminal) :
    (cleanState c p t).terminal = t := rfl

@[simp] theorem cleanState_consumed (c : List (List Nat)) (p : Option Nat) (t : Terminal) :
    (cleanState c p t).consumed = [] := rfl

@[simp] theorem cleanState_sinkCap (c : List (List Nat)) (p : Option Nat) (t : Terminal) :
    (cleanState c p t).sinkCap = p := rfl

@[simp] theorem cleanState_sunk (c : List (List Nat)) (p : Option Nat) (t : Terminal) :
    (cleanState c p t).sunk = [] := rfl

@[simp] theorem cleanState_buf (c : List (List Nat)) (p : Option Nat) (t : Terminal) :
    (cleanState c p t).buf = [] := rfl

@[simp] theorem cleanState_contentV (c : List (List Nat)) (p : Option Nat) (t : Terminal) :
    (cleanState c p t).contentV = [] := rfl

@[simp] theorem cleanState_trace (c : List (List Nat)) (p : Option Nat) (t : Terminal) :
    (cleanState c p t).trace = [] := rfl

theorem containsSub_nil_of_ne {needle : List Nat} (h : needle ≠ []) :
    containsSub [] needle = false := by
  cases needle with
  | nil => exact absurd rfl h
  | cons x xs => rfl

theorem scanSplit_none_take (needle rs : List Nat) (hne : needle ≠ [])
    (h : scanSplit needle [] rs = none) :
    ∀ k, containsSub (encodeAll (rs.take k)) needle = false := by
  intro k
  rcases Nat.eq_zero_or_pos k with hk0 | hkpos
  · subst hk0
    simpa [encodeAll_nil] using containsSub_nil_of_ne hne
  · rcases le_or_lt k rs.length with hle | hgt
    · simpa using scanSplit_none needle [] rs h k hkpos hle
    · rw [List.take_of_length_le (by omega)]
      cases hrs : rs with
      | nil => simpa [encodeAll_nil] using containsSub_nil_of_ne hne
      | cons r0 rs0 =>
        have h2 := scanSplit_none needle [] rs h rs.length (by simp [hrs]) (le_refl _)
        rw [List.take_length] at h2
        rw [← hrs]
        simpa using h2

/-! ### Claim theorems -/

/-- **C1** (code-bug evaluation).  On a stream that delivers the two bytes
`"ab"` in a single read, `Expect("a")` matches and returns buffer `"a"`,
yet both bytes have been consumed from the stream: the byte `'b'` sits in
the `bufio.Reader` that `Expect` discards on return (the chunk list is
empty), so the stream's next read cannot yield the byte after the match —
contradicting the claimed no-over-read contract and the function's own doc
comment ("No extra bytes are read once a match is found"). -/
theorem C1_overread_eval :
    resultOk (expectGo [0x61] 2 (cleanState [[0x61, 0x62]] none .eof)) = true ∧
    resultContent (expectGo [0x61] 2 (cleanState [[0x61, 0x62]] none .eof)) = [0x61] ∧
    (finalState (expectGo [0x61] 2 (cleanState [[0x61, 0x62]] none .eof))).consumed =
      [0x61, 0x62] ∧
    (finalState (expectGo [0x61] 2 (cleanState [[0x61, 0x62]] none .eof))).chunks = [] ∧
    (finalState (expectGo [0x61] 2 (cleanState [[0x61, 0x62]] none .eof))).buffered =
      [0x62] := by
  decide

/-- **C2** (counterexample).  With the empty needle and the single byte
`0xFF` as the stream, `Expect` returns with nil error and buffer
`EF BF BD`; yet the empty string is a shorter rune-aligned prefix of the
stream that already contains the needle, and the returned buffer is not
even a prefix of the stream — the claim's "shortest rune-aligned prefix of
the stream" clause is false as stated. -/
theorem C2_counterexample :
    resultOk (expectGo [] 2 (cleanState [[0xFF]] none .eof)) = true ∧
    resultContent (expectGo [] 2 (cleanState [[0xFF]] none .eof)) = [0xEF, 0xBF, 0xBD] ∧
    containsSub [] [] = true ∧
    startsWith [0xEF, 0xBF, 0xBD] [0xFF] = false := by
  decide

/-- **C2** (amended).  For a byte-wise delivered stream of well-formed
UTF-8 (the encoding of runes `rs`) and a nonempty needle, `Expect` returns
with nil error exactly when some rune-aligned prefix of the stream contains
the needle as a byte-wise, case-sensitive substring; on success the
returned buffer is the shortest rune-aligned prefix of the stream that
contains the needle. -/
theorem C2_match_characterization (rs needle : List Nat) (fuel : Nat)
    (hv : ∀ r ∈ rs, validScalar r) (hne : needle ≠ []) (hf : rs.length < fuel) :
    (resultOk (expectGo needle fuel
        (cleanState (byteChunks (encodeAll rs)) none .eof)) = true ↔
      ∃ k, containsSub (encodeAll (rs.take k)) needle = true) ∧
    (∀ c stF,
      expectGo needle fuel (cleanState (byteChunks (encodeAll rs)) none .eof) =
        Result.ok c stF →
      ∃ k, c = encodeAll (rs.take k) ∧ containsSub c needle = true ∧
        ∀ j, j < k → containsSub (encodeAll (rs.take j)) needle = false) := by
  have hmaster := expectGo_master needle rs hv
    (cleanState (byteChunks (encodeAll rs)) none .eof) rfl rfl rfl fuel hf
  simp only [cleanState_buf, cleanState_consumed, cleanState_sunk, cleanState_trace,
    cleanState_terminal, List.nil_append] at hmaster
  cases hscan : scanSplit needle [] rs with
  | some pr =>
    obtain ⟨ps, rest⟩ := pr
    rw [hscan] at hmaster
    obtain ⟨k, hk1, hklen, hkps, hkrest, hkcon, hkmin⟩ :=
      scanSplit_some needle [] rs ps rest hscan
    simp only [List.nil_append] at hkcon
    constructor
    · rw [hmaster]
      exact ⟨fun _ => ⟨k, hkcon⟩, fun _ => rfl⟩
    · intro c stF hok
      rw [hmaster] at hok
      simp only [Result.ok.injEq] at hok
      obtain ⟨hc, -⟩ := hok
      refine ⟨k, ?_, ?_, ?_⟩
      · rw [← hc, hkps]
      · rw [← hc, hkps]
        exact hkcon
      · intro j hj
        rcases Nat.eq_zero_or_pos j with hj0 | hjpos
        · subst hj0
          simpa [encodeAll_nil] using containsSub_nil_of_ne hne
        · simpa using hkmin j hjpos hj
  | none =>
    rw [hscan] at hmaster
    have hnone := scanSplit_none_take needle rs hne hscan
    constructor
    · rw [hmaster]
      constructor
      · intro habs
        exact absurd habs (by simp [resultOk])
      · rintro ⟨k, hk⟩
        rw [hnone k] at hk
        exact absurd hk (by simp)
    · intro c stF hok
      rw [hmaster] at hok
      exact absurd hok (by simp)

/-- **C2** (witness).  The amended characterization applied to the stream
`"hi"` delivered byte-wise with needle `"i"`. -/
theorem C2_witness :
    (resultOk (expectGo [0x69] 3
        (cleanState (byteChunks (encodeAll [0x68, 0x69])) none .eof)) = true ↔
      ∃ k, containsSub (encodeAll (([0x68, 0x69] : List Nat).take k)) [0x69] = true) ∧
    (∀ c stF,
      expectGo [0x69] 3 (cleanState (byteChunks (encodeAll [0x68, 0x69])) none .eof) =
        Result.ok c stF →
      ∃ k, c = encodeAll (([0x68, 0x69] : List Nat).take k) ∧
        containsSub c [0x69] = true ∧
        ∀ j, j < k →
          containsSub (encodeAll (([0x68, 0x69] : List Nat).take j)) [0x69] = false) :=
  C2_match_characterization [0x68, 0x69] [0x69] 3 (by decide) (by decide) (by decide)

/-- **C3** (counterexample).  On the byte-wise stream `E0 61` with needle
`EF BF BD`, the call reads `0xE0` and then `0x61` before anything is
written, and what is flushed to the sinks (`EF BF BD`) differs from the
bytes consumed from the stream (`E0 61`): both the claimed tee equality and
the claimed each-byte-written-before-the-next-read ordering fail. -/
theorem C3_counterexample :
    ¬ (wrConcat (finalState (expectGo [0xEF, 0xBF, 0xBD] 3
          (cleanState [[0xE0], [0x61]] none .eof))).trace =
        (finalState (expectGo [0xEF, 0xBF, 0xBD] 3
          (cleanState [[0xE0], [0x61]] none .eof))).consumed ∧
       noReadWhilePending (finalState (expectGo [0xEF, 0xBF, 0xBD] 3
          (cleanState [[0xE0], [0x61]] none .eof))).trace [] = true) := by
  decide

/-- **C3** (amended).  For a byte-wise delivered, well-formed UTF-8 stream,
the bytes flushed to every sink during the call equal the bytes consumed
from the stream, in read order, and the tee is faithful at rune
granularity: every flushed block is exactly the bytes read since the
previous flush, so each rune is written to every sink before the next rune
is read. -/
theorem C3_sink_tee (rs needle : List Nat) (fuel : Nat)
    (hv : ∀ r ∈ rs, validScalar r) (hf : rs.length < fuel) :
    wrConcat (finalState (expectGo needle fuel
        (cleanState (byteChunks (encodeAll rs)) none .eof))).trace =
      (finalState (expectGo needle fuel
        (cleanState (byteChunks (encodeAll rs)) none .eof))).consumed ∧
    teeFaithful (finalState (expectGo needle fuel
        (cleanState (byteChunks (encodeAll rs)) none .eof))).trace [] = true := by
  have hmaster := expectGo_master needle rs hv
    (cleanState (byteChunks (encodeAll rs)) none .eof) rfl rfl rfl fuel hf
  simp only [cleanState_buf, cleanState_consumed, cleanState_sunk, cleanState_trace,
    cleanState_terminal, List.nil_append] at hmaster
  rw [hmaster]
  cases hscan : scanSplit needle [] rs with
  | some pr =>
    obtain ⟨ps, rest⟩ := pr
    exact ⟨by simp [finalState, wrConcat_runesTrace],
      by simp [finalState, teeFaithful_runesTrace]⟩
  | none =>
    exact ⟨by simp [finalState, wrConcat_runesTrace],
      by simp [finalState, teeFaithful_runesTrace]⟩

/-- **C3** (witness).  The amended tee property applied to the stream
`"hi"` delivered byte-wise with needle `"i"`. -/
theorem C3_witness :
    wrConcat (finalState (expectGo [0x69] 3
        (cleanState (byteChunks (encodeAll [0x68, 0x69])) none .eof))).trace =
      (finalState (expectGo [0x69] 3
        (cleanState (byteChunks (encodeAll [0x68, 0x69])) none .eof))).consumed ∧
    teeFaithful (finalState (expectGo [0x69] 3
        (cleanState (byteChunks (encodeAll [0x68, 0x69])) none .eof))).trace [] = true :=
  C3_sink_tee [0x68, 0x69] [0x69] 3 (by decide) (by decide)

/-- **C4** (counterexample).  On the stream consisting of the single
invalid byte `0xFF`, the sinks receive the replacement rune's encoding
`EF BF BD`, not the original byte `FF` that was consumed — the claim's
"written to the sinks as its original byte" is false. -/
theorem C4_counterexample :
    resultOk (expectGo [0xEF, 0xBF, 0xBD] 2 (cleanState [[0xFF]] none .eof)) = true ∧
    (finalState (expectGo [0xEF, 0xBF, 0xBD] 2
        (cleanState [[0xFF]] none .eof))).consumed = [0xFF] ∧
    (finalState (expectGo [0xEF, 0xBF, 0xBD] 2
        (cleanState [[0xFF]] none .eof))).sunk = [0xEF, 0xBF, 0xBD] ∧
    ([0xEF, 0xBF, 0xBD] : List Nat) ≠ [0xFF] := by
  decide

/-- **C4** (amended).  An invalid UTF-8 byte is decoded as the replacement
rune and the replacement rune's encoding — not the original byte — is what
reaches the sinks; for ASCII and well-formed UTF-8 input the
decode-then-re-encode path writes to the sinks exactly the bytes that were
read from the stream. -/
theorem C4_roundtrip (rs needle : List Nat) (fuel : Nat)
    (hv : ∀ r ∈ rs, validScalar r) (hf : rs.length < fuel) :
    (decodeRune [0xFF] = (runeError, 1) ∧ encodeRune runeError = [0xEF, 0xBF, 0xBD]) ∧
    (finalState (expectGo needle fuel
        (cleanState (byteChunks (encodeAll rs)) none .eof))).sunk =
      (finalState (expectGo needle fuel
        (cleanState (byteChunks (encodeAll rs)) none .eof))).consumed := by
  refine ⟨by decide, ?_⟩
  have hmaster := expectGo_master needle rs hv
    (cleanState (byteChunks (encodeAll rs)) none .eof) rfl rfl rfl fuel hf
  simp only [cleanState_buf, cleanState_consumed, cleanState_sunk, cleanState_trace,
    cleanState_terminal, List.nil_append] at hmaster
  rw [hmaster]
  cases hscan : scanSplit needle [] rs with
  | some pr =>
    obtain ⟨ps, rest⟩ := pr
    simp [finalState]
  | none =>
    simp [finalState]

/-- **C4** (witness).  The amended round-trip property applied to the
stream `"hi"` delivered byte-wise with needle `"h"`. -/
theorem C4_witness :
    (decodeRune [0xFF] = (runeError, 1) ∧ encodeRune runeError = [0xEF, 0xBF, 0xBD]) ∧
    (finalState (expectGo [0x68] 3
        (cleanState (byteChunks (encodeAll [0x68, 0x69])) none .eof))).sunk =
      (finalState (expectGo [0x68] 3
        (cleanState (byteChunks (encodeAll [0x68, 0x69])) none .eof))).consumed :=
  C4_roundtrip [0x68, 0x69] [0x68] 3 (by decide) (by decide)

/-- **C5** (counterexample).  `Expect` with a per-call timeout of `0`
against the empty (hence forever silent) stream fails with the stream's
EOF error, not with a timeout: `WithTimeout(0)` selects the raw reader with
no deadline, exactly as its doc comment says ("A zero value for timeout
means Read will not time out"). -/
theorem C5_counterexample :
    isTimeoutErr (consoleExpect 0 [] [0x78] 1) = false ∧
    consoleExpect 0 [] [0x78] 1 =
      Result.fail (.terminal .eof) [] (cleanState [] none .eof) := by
  decide

/-- **C5** (amended).  A per-call timeout of `0` installs no deadline at
all, so no `Expect` call made with timeout `0` ever fails with a timeout
error, whatever the stream does; a finite silent stream produces the
stream's terminal EOF error instead. -/
theorem C5_no_timeout (stream : List TimedChunk) (needle : List Nat) (fuel : Nat) :
    isTimeoutErr (consoleExpect 0 stream needle fuel) = false := by
  simp only [consoleExpect, if_pos]
  cases hres : expectGo needle fuel
      (cleanState (stream.map (fun c => c.data)) none .eof) with
  | ok c stF => simp [isTimeoutErr]
  | fail ek c stF =>
    cases ek with
    | terminal t =>
      have ht := expectGo_fail_terminal fuel needle _ t c stF hres
      simp only [cleanState_terminal] at ht
      subst ht
      simp [isTimeoutErr]
    | flush => simp [isTimeoutErr]
    | fuel => simp [isTimeoutErr]

/-- **C10**.  Whenever an `Expect` call fails (read error or flush error,
the two error paths of the loop), the `content` value it returns alongside
the error is exactly the match buffer content at the moment of failure —
all bytes successfully tee'd so far — even though the source returns the
`content` variable saved at the top of the loop iteration: a failed sink
write aborts the multi-write before the buffer is updated, so the saved
value and the buffer agree. -/
theorem C10_fail_returns_buffer (fuel : Nat) (needle : List Nat) (st : State)
    (ek : ErrKind) (c : List Nat) (stF : State)
    (h : expectGo needle fuel st = .fail ek c stF) (hek : ek ≠ .fuel) :
    c = stF.buf :=
  expectGo_fail_content fuel needle st ek c stF h hek

/-- **C10** (witness).  A sink of capacity 1 makes the flush of the second
rune of `"ab"` fail; the call returns the one successfully tee'd byte
`"a"`, which is the match buffer content of the final state. -/
theorem C10_witness :
    ([0x61] : List Nat) =
      (State.mk [] [] Terminal.eof [0x61, 0x62] (some 1) [0x61] [0x61] [0x61]
        [Event.rd [0x61], Event.wr [0x61], Event.rd [0x62]]).buf :=
  C10_fail_returns_buffer 5 [0x62] (cleanState (byteChunks [0x61, 0x62]) (some 1) .eof)
    .flush [0x61]
    (State.mk [] [] Terminal.eof [0x61, 0x62] (some 1) [0x61] [0x61] [0x61]
      [Event.rd [0x61], Event.wr [0x61], Event.rd [0x62]])
    (by decide) (by decide)

/-- **C6** (counterexample).  A pipe whose upstream has already failed with
`E` but which still holds one in-flight byte delivers that byte on the next
read, not `E`: spec §4.1 requires bytes written before `E` to be delivered
before `E`, so "every subsequent read returns `E`" is false as stated. -/
theorem C6_counterexample :
    (PassthroughPipe.read ⟨[0x67], some "pipe error"⟩ 1).1 = PPReadResult.bytes [0x67] ∧
    PPReadResult.bytes [0x67] ≠ PPReadResult.errE "pipe error" := by
  decide

/-- **C6** (amended).  Once the upstream has failed with `E` and the pipe's
in-flight bytes are drained, every subsequent read returns `E` itself
(never a generic EOF) and leaves the pipe unchanged; in particular, if the
upstream is closed with `E` before any data, the very first `read` of
length 1 returns `E`. -/
theorem C6_error_persistence (pp : PassthroughPipe) (e : String) (n k : Nat)
    (he : pp.storedErr = some e) (_hn : 1 ≤ n) (hk : pp.buffered.length ≤ k) :
    (pp.readIter k).read n = (PPReadResult.errE e, pp.readIter k) := by
  rw [readIter_state]
  have hdrop : pp.buffered.drop k = [] := by
    rw [List.drop_eq_nil_iff]
    · omega
  simp [PassthroughPipe.read, hdrop, he]

/-- **C6** (witness).  The scenario of the PassthroughPipe test: upstream
closed with "pipe error" before any read; the first 1-byte read returns
that error, not EOF. -/
theorem C6_witness :
    (PassthroughPipe.readIter ⟨[], some "pipe error"⟩ 0).read 1 =
      (PPReadResult.errE "pipe error", PassthroughPipe.readIter ⟨[], some "pipe error"⟩ 0) :=
  C6_error_persistence ⟨[], some "pipe error"⟩ "pipe error" 1 0 rfl (by decide) (by decide)

/-- **C7** (counterexample).  A read with a zero-length buffer, issued
while a byte is available and the scope is not cancelled, receives the byte
from the channel first and only then fails the length check: the byte is
removed from the channel (and lost), contrary to the claim. -/
theorem C7_counterexample :
    chanReaderRead false [7] 0 false = (CRResult.errZeroLen, []) ∧
    ([] : List Nat) ≠ [7] := by
  decide

/-- **C7** (amended).  `chanReader.Read` with a buffer of length ≥ 1
either stores exactly the next channel byte and returns `n = 1`, or yields
end-of-stream when the scope is cancelled, consuming nothing; a read with a
zero-length buffer, however, fails only after receiving, so it removes the
byte it raced from the channel. -/
theorem C7_read_semantics (b : Nat) (rest queue : List Nat) (bufLen : Nat)
    (pickDone : Bool) (hb : 1 ≤ bufLen) :
    (chanReaderRead true queue bufLen true = (CRResult.eof, queue)) ∧
    (chanReaderRead false (b :: rest) bufLen pickDone = (CRResult.one b, rest)) ∧
    (chanReaderRead false (b :: rest) 0 pickDone = (CRResult.errZeroLen, rest)) := by
  refine ⟨?_, ?_, ?_⟩
  · simp [chanReaderRead]
  · simp only [chanReaderRead, Bool.false_and, Bool.false_eq_true, if_false]
    rw [if_neg (by omega)]
  · simp [chanReaderRead]

/-- **C7** (witness).  The amended read semantics at the concrete channel
content `[5]` with a 1-byte buffer. -/
theorem C7_witness :
    (chanReaderRead true [5] 1 true = (CRResult.eof, [5])) ∧
    (chanReaderRead false [5] 1 false = (CRResult.one 5, [])) ∧
    (chanReaderRead false [5] 0 false = (CRResult.errZeroLen, [])) :=
  C7_read_semantics 5 [] [5] 1 false (by decide)

/-- **C8**.  `ReaderMux.Mux` publishes to the shared channel exactly the
bytes its 1-byte upstream reads deliver, in order; it exits returning the
upstream error as soon as a read errors, and a 0-byte read with nil error
panics instead of being published or skipped. -/
theorem C8_mux_semantics (bs : List Nat) (e : String) (tail : List ReadOutcome) :
    Mux (bs.map ReadOutcome.byte ++ ReadOutcome.errR e :: tail) =
      (bs, some (MuxExit.retErr e)) ∧
    Mux (bs.map ReadOutcome.byte ++ ReadOutcome.zero :: tail) =
      (bs, some MuxExit.panicked) := by
  induction bs with
  | nil => exact ⟨rfl, rfl⟩
  | cons b bs ih =>
    refine ⟨?_, ?_⟩
    · simp only [List.map_cons, List.cons_append, Mux, List.append_eq, ih.1]
    · simp only [List.map_cons, List.cons_append, Mux, List.append_eq, ih.2]

/-- **C9** (counterexample).  `StripTrailingEmptyLines "a\n\t"` leaves the
trailing tab line in place, although that line consists only of whitespace:
the code strips only space characters (its own doc comment says "lines that
consist of only space characters"), not whitespace. -/
theorem C9_counterexample :
    StripTrailingEmptyLines [Char.ofNat 97, Char.ofNat 10, Char.ofNat 9] =
      [Char.ofNat 97, Char.ofNat 10, Char.ofNat 9] ∧
    whitespaceOnlyLine [Char.ofNat 9] = true ∧
    stripTrailingWhitespaceLines [Char.ofNat 97, Char.ofNat 10, Char.ofNat 9] =
      [Char.ofNat 97] ∧
    ([Char.ofNat 97, Char.ofNat 10, Char.ofNat 9] : List Char) ≠ [Char.ofNat 97] := by
  decide

/-- **C9** (amended).  For every multi-line string (at least one newline,
i.e. at least two lines), `StripTrailingEmptyLines` splits into lines,
removes every trailing line that consists only of space characters
(U+0020), keeps every other line in order unchanged, and rejoins with
newlines; the retained suffix ends in a line that is not space-only (or is
empty). -/
theorem C9_strip_spec (out : List Char) (h : 2 ≤ (splitLines out).length) :
    ∃ kept dropped,
      splitLines out = kept ++ dropped ∧
      (∀ l ∈ dropped, (removeSpaces l).length = 0) ∧
      (kept = [] ∨ ∃ ks lastL, kept = ks ++ [lastL] ∧ (removeSpaces lastL).length ≠ 0) ∧
      StripTrailingEmptyLines out = joinLines kept := by
  obtain ⟨d, k, hdk, hd, hk, hres⟩ :=
    dropLeadingIf_spec (fun l => (removeSpaces l).length == 0) (splitLines out).reverse
  refine ⟨k.reverse, d.reverse, ?_, ?_, ?_, ?_⟩
  · have h2 := congrArg List.reverse hdk
    simpa [List.reverse_append] using h2
  · intro l hl
    have h3 := hd l (by simpa using hl)
    simpa using h3
  · rcases hk with hk | ⟨h2, t2, hk2, hp⟩
    · left
      simp [hk]
    · right
      refine ⟨t2.reverse, h2, by simp [hk2], by simpa using hp⟩
  · simp only [StripTrailingEmptyLines]
    rw [if_neg (by omega)]
    simp only [trimTrailingSpaceLines, hres]

/-- **C9** (witness).  The amended characterization applied to the string
`"a\n "`. -/
theorem C9_witness :
    ∃ kept dropped,
      splitLines [Char.ofNat 97, Char.ofNat 10, Char.ofNat 32] = kept ++ dropped ∧
      (∀ l ∈ dropped, (removeSpaces l).length = 0) ∧
      (kept = [] ∨ ∃ ks lastL, kept = ks ++ [lastL] ∧ (removeSpaces lastL).length ≠ 0) ∧
      StripTrailingEmptyLines [Char.ofNat 97, Char.ofNat 10, Char.ofNat 32] =
        joinLines kept :=
  C9_strip_spec [Char.ofNat 97, Char.ofNat 10, Char.ofNat 32] (by decide)

end GoExpect
